import Mathlib

/-!
Verification of the rough-set analysis engine of `src/app.py`.

The embedding below translates the five core functions of the source
(`equivalence_classes`, `lower_upper`, `reducts`, `extract_rules`,
`inconsistent_objects`) together with the derived quantities `boundary` and
`accuracy` computed in the RUN block.  A decision table is a list of rows,
each row holding its condition-attribute values (aligned with the attribute
name list) and its decision value; object ids are the row indices produced by
`df.iterrows()` (0, 1, 2, ...).  Label access `row[a]` on a pandas row raises
`KeyError` for an unknown label, which the embedding models with `Option`.
-/

set_option maxRecDepth 10000

namespace RoughSet

/-- A decision table: the condition attribute names and the rows; each row
carries its condition values (aligned with `attrs`) and its decision value. -/
structure DecisionTable where
  attrs : List String
  rows : List (List String × String)

/-- Validity of a table as enforced by the app's input widgets and the RUN
block validation: at least one condition attribute, distinct names none of
which is the reserved column name Decision, at least two rows, every row
aligned with the attribute list, and no empty cell. -/
def DecisionTable.Valid (t : DecisionTable) : Prop :=
  t.attrs ≠ [] ∧ t.attrs.Nodup ∧ "Decision" ∉ t.attrs ∧ 2 ≤ t.rows.length ∧
    ∀ r ∈ t.rows, r.1.length = t.attrs.length ∧ r.2 ≠ "" ∧ ∀ v ∈ r.1, v ≠ ""

instance (t : DecisionTable) : Decidable t.Valid := by
  unfold DecisionTable.Valid; infer_instance

/-- Label lookup in a pandas row Series: first matching label wins, a missing
label raises `KeyError` (modelled as `none`). -/
def lookupStr (a : String) : List (String × String) → Option String
  | [] => none
  | (k, v) :: rest => if k = a then some v else lookupStr a rest

/-- Pandas `row[a]`: the labels of a row Series are the condition attributes followed
by the Decision column. -/
def colValue (attrs : List String) (r : List String × String) (a : String) : Option String :=
  lookupStr a (attrs.zip r.1 ++ [("Decision", r.2)])

/-- Total description of `row[a]` for the case where the lookup succeeds. -/
def cellVal (attrs : List String) (r : List String × String) (a : String) : String :=
  (colValue attrs r a).getD ""

/-- The key tuple of a row under an attribute subset, in the successful case. -/
def keyOf (attrs sub : List String) (r : List String × String) : List String :=
  sub.map (cellVal attrs r)

/-- Left-to-right fallible map (a Python comprehension that may raise). -/
def mapOpt (f : α → Option β) : List α → Option (List β)
  | [] => some []
  | a :: as => do
    let b ← f a
    let bs ← mapOpt f as
    pure (b :: bs)

/-- Python `tuple(row[a] for a in attributes)`: `KeyError` if any label is missing. -/
def rowKey (attrs sub : List String) (r : List String × String) : Option (List String) :=
  mapOpt (colValue attrs r) sub

/-- Dict update `groups.setdefault(key, []).append(idx)` on an insertion-ordered dict,
modelled as an association list: append the index to the entry of `key`,
creating the entry at the end if absent. -/
def addToGroups (key : List String) (i : Nat) :
    List (List String × List Nat) → List (List String × List Nat)
  | [] => [(key, [i])]
  | (k, g) :: rest =>
      if k = key then (k, g ++ [i]) :: rest else (k, g) :: addToGroups key i rest

/-- The dict-building loop of `equivalence_classes` over the remaining rows;
`i` is the index of the first remaining row. -/
def eqcGo (attrs sub : List String) :
    List (List String × String) → Nat → List (List String × List Nat) →
      Option (List (List String × List Nat))
  | [], _, acc => some acc
  | r :: rs, i, acc => do
    let key ← rowKey attrs sub r
    eqcGo attrs sub rs (i + 1) (addToGroups key i acc)

/-- Translation of `equivalence_classes(df, attributes)` from `src/app.py`. -/
def equivalence_classes (t : DecisionTable) (sub : List String) :
    Option (List (List Nat)) :=
  (eqcGo t.attrs sub t.rows 0 []).map (List.map Prod.snd)

/-- The decision value of the object with id `i` (`df.loc[i]["Decision"]`). -/
def decisionOf (t : DecisionTable) (i : Nat) : String := (t.rows.getD i ([], "")).2

/-- Python `set(df.loc[cls]["Decision"])`. -/
def clsDecs (t : DecisionTable) (cls : List Nat) : Finset String :=
  (cls.map (decisionOf t)).toFinset

/-- Python `sorted(set(l))`: the increasing list of the distinct elements. -/
def pySortedSet {α : Type} [LinearOrder α] [DecidableEq α] (l : List α) : List α :=
  l.dedup.insertionSort (· ≤ ·)

/-- The accumulation loop of `lower_upper` over the equivalence classes. -/
def luFold (t : DecisionTable) (dv : String) (eq : List (List Nat)) :
    List Nat × List Nat :=
  eq.foldl
    (fun lu cls =>
      if clsDecs t cls = {dv} then (lu.1 ++ cls, lu.2 ++ cls)
      else if dv ∈ clsDecs t cls then (lu.1, lu.2 ++ cls)
      else lu)
    ([], [])

/-- What one class contributes to the pre-dedup lower list of `lower_upper`. -/
def lowAdd (t : DecisionTable) (dv : String) (cls : List Nat) : List Nat :=
  if clsDecs t cls = {dv} then cls else []

/-- What one class contributes to the pre-dedup upper list of `lower_upper`. -/
def upAdd (t : DecisionTable) (dv : String) (cls : List Nat) : List Nat :=
  if clsDecs t cls = {dv} then cls else if dv ∈ clsDecs t cls then cls else []

/-- Translation of `lower_upper(df, attrs, decision_value)` from `src/app.py`. -/
def lower_upper (t : DecisionTable) (sub : List String) (dv : String) :
    Option (List Nat × List Nat) :=
  (equivalence_classes t sub).map fun eq =>
    (pySortedSet (luFold t dv eq).1, pySortedSet (luFold t dv eq).2)

/-- Line `boundary = sorted(set(upper) - set(lower))` of the RUN block. -/
def boundary (lower upper : List Nat) : List Nat :=
  pySortedSet (upper.filter (fun x => decide (x ∉ lower)))

/-- Line `accuracy = len(lower) / len(upper) if len(upper) else 0` of the RUN block. -/
def accuracy (lower upper : List Nat) : ℚ :=
  if upper.length ≠ 0 then (lower.length : ℚ) / (upper.length : ℚ) else 0

/-- Python `itertools.combinations(l, r)`: the length-`r` subsequences of `l`, in the
order the Python iterator yields them. -/
def combinations : Nat → List String → List (List String)
  | 0, _ => [[]]
  | _ + 1, [] => []
  | r + 1, a :: as => (combinations r as).map (fun c => a :: c) ++ combinations (r + 1) as

/-- The candidates visited by the nested loop of `reducts`: sizes `1..len(attrs)`. -/
def combosFrom (attrs : List String) : List Nat → List (List String)
  | [] => []
  | r :: rs => combinations r attrs ++ combosFrom attrs rs

/-- All candidate subsets tested by `reducts`, in visit order. -/
def allCombos (attrs : List String) : List (List String) :=
  combosFrom attrs ((List.range attrs.length).map (· + 1))

/-- The collection loop of `reducts` over the candidate subsets. -/
def reductsGo (t : DecisionTable) (full : List (List Nat)) :
    List (List String) → Option (List (List String))
  | [] => some []
  | c :: cs => do
    let p ← equivalence_classes t c
    let rest ← reductsGo t full cs
    pure (if p = full then c :: rest else rest)

/-- Translation of `reducts(df, attrs)` from `src/app.py`. -/
def reducts (t : DecisionTable) (attrs : List String) : Option (List (List String)) := do
  let full ← equivalence_classes t attrs
  reductsGo t full (allCombos attrs)

/-- Python first-occurrence dedup, as done by `df["Decision"].unique()`. -/
def uniqF {α : Type} [DecidableEq α] : List α → List α
  | [] => []
  | a :: as => a :: (uniqF as).filter (fun b => decide (b ≠ a))

/-- The rule string built for one object id of a lower approximation. -/
def ruleFor (t : DecisionTable) (sub : List String) (idx : Nat) (d : String) :
    Option String := do
  let cond ← mapOpt
    (fun a => (colValue t.attrs (t.rows.getD idx ([], "")) a).map (fun v => a ++ "=" ++ v)) sub
  pure ("IF " ++ String.intercalate " AND " cond ++ " THEN Decision = " ++ d)

/-- The per-decision loop of `extract_rules`. -/
def rulesGo (t : DecisionTable) (sub : List String) : List String → Option (List String)
  | [] => some []
  | d :: ds => do
    let lu ← lower_upper t sub d
    let rs ← mapOpt (fun idx => ruleFor t sub idx d) lu.1
    let rest ← rulesGo t sub ds
    pure (rs ++ rest)

/-- Translation of `extract_rules(df, attrs)` from `src/app.py`. -/
def extract_rules (t : DecisionTable) (sub : List String) : Option (List String) :=
  (rulesGo t sub (uniqF (t.rows.map Prod.snd))).map pySortedSet

/-- The collection loop of `inconsistent_objects`. -/
def icGo (t : DecisionTable) : List (List Nat) → List (List Nat × List String)
  | [] => []
  | cls :: rest =>
      if 1 < (clsDecs t cls).card then
        (cls, (cls.map (decisionOf t)).dedup) :: icGo t rest
      else icGo t rest

/-- Translation of `inconsistent_objects(df, attrs)` from `src/app.py`. -/
def inconsistent_objects (t : DecisionTable) (sub : List String) :
    Option (List (List Nat × List String)) :=
  (equivalence_classes t sub).map (icGo t)

/-- First entry of an association list for a given key (empty if absent). -/
def entry (k : List String) : List (List String × List Nat) → List Nat
  | [] => []
  | (k', g) :: rest => if k' = k then g else entry k rest

/-- The grouping loop of `equivalence_classes`, with the key computation
factored out as a total function (the successful-lookup case). -/
def collectRows (keyf : List String × String → List String) :
    List (List String × String) → Nat → List (List String × List Nat) →
      List (List String × List Nat)
  | [], _, acc => acc
  | r :: rs, i, acc => collectRows keyf rs (i + 1) (addToGroups (keyf r) i acc)

/-- The ids (counted from `i`) of the rows whose key is `k`. -/
def idxFilter (keyf : List String × String → List String) (k : List String) :
    List (List String × String) → Nat → List Nat
  | [], _ => []
  | r :: rs, i =>
      if keyf r = k then i :: idxFilter keyf k rs (i + 1) else idxFilter keyf k rs (i + 1)

/-- Closed form of the partition computed by `equivalence_classes`: one group
per distinct key in first-occurrence order, each group listing its row ids in
increasing order. -/
def eqcGroups (keyf : List String × String → List String)
    (rs : List (List String × String)) : List (List Nat) :=
  (uniqF (rs.map keyf)).map (fun k => idxFilter keyf k rs 0)

/-- Set-of-groups equality of two partitions: same groups as sets of object
ids, independent of group order and of id order inside a group. -/
def sameGroups (p q : List (List Nat)) : Prop :=
  (p.map List.toFinset).toFinset = (q.map List.toFinset).toFinset

instance (p q : List (List Nat)) : Decidable (sameGroups p q) := by
  unfold sameGroups; infer_instance

/-- The spec example table of section 8. -/
def exTable : DecisionTable :=
  ⟨["A1", "A2"], [(["x", "y"], "P"), (["x", "y"], "P"), (["x", "z"], "N")]⟩

/-- A one-attribute table on which every object carries the same rule. -/
def exTable2 : DecisionTable := ⟨["A1"], [(["x"], "P"), (["x"], "P")]⟩

example : exTable.Valid := by decide
example : equivalence_classes exTable ["A1", "A2"] = some [[0, 1], [2]] := by decide
example : equivalence_classes exTable ["A1"] = some [[0, 1, 2]] := by decide
example : equivalence_classes exTable ["A2"] = some [[0, 1], [2]] := by decide
example : lower_upper exTable ["A1", "A2"] "P" = some ([0, 1], [0, 1]) := by decide
example : reducts exTable exTable.attrs = some [["A2"], ["A1", "A2"]] := by decide
example : equivalence_classes exTable ["Decision"] = some [[0, 1], [2]] := by decide
example : lower_upper exTable ["A1", "A2"] "Z" = some ([], []) := by decide
example : inconsistent_objects exTable ["A1", "A2"] = some [] := by decide

/-! ### Lemmas about `uniqF` -/

theorem mem_uniqF {α : Type} [DecidableEq α] {l : List α} {a : α} :
    a ∈ uniqF l ↔ a ∈ l := by
  induction l with
  | nil => simp [uniqF]
  | cons b bs ih =>
      simp only [uniqF, List.mem_cons, List.mem_filter, decide_eq_true_eq]
      constructor
      · rintro (rfl | ⟨h1, _⟩)
        · exact Or.inl rfl
        · exact Or.inr (ih.mp h1)
      · rintro (rfl | h)
        · exact Or.inl rfl
        · by_cases hab : a = b
          · exact Or.inl hab
          · exact Or.inr ⟨ih.mpr h, hab⟩

theorem nodup_uniqF {α : Type} [DecidableEq α] (l : List α) : (uniqF l).Nodup := by
  induction l with
  | nil => exact List.nodup_nil
  | cons b bs ih =>
      rw [uniqF, List.nodup_cons]
      refine ⟨?_, ih.filter _⟩
      intro hmem
      have := List.of_mem_filter hmem
      simp at this

/-! ### Lemmas about `mapOpt`, `lookupStr`, `colValue`, `rowKey` -/

theorem mapOpt_eq_some_map {α β : Type} {f : α → Option β} {g : α → β} {l : List α}
    (h : ∀ a ∈ l, f a = some (g a)) : mapOpt f l = some (l.map g) := by
  induction l with
  | nil => rfl
  | cons a as ih =>
      have h1 : f a = some (g a) := h a (by simp)
      have h2 : mapOpt f as = some (as.map g) := ih fun x hx => h x (by simp [hx])
      simp [mapOpt, h1, h2]

theorem mapOpt_eq_none {α β : Type} {f : α → Option β} {l : List α} {a : α}
    (ha : a ∈ l) (hf : f a = none) : mapOpt f l = none := by
  induction l with
  | nil => cases ha
  | cons x xs ih =>
      rcases List.mem_cons.mp ha with rfl | h
      · simp [mapOpt, hf]
      · cases hfx : f x with
        | none => simp [mapOpt, hfx]
        | some b => simp [mapOpt, hfx, ih h]

theorem lookupStr_isSome {a : String} {l : List (String × String)}
    (h : a ∈ l.map Prod.fst) : (lookupStr a l).isSome := by
  induction l with
  | nil => simp at h
  | cons p ps ih =>
      obtain ⟨k, v⟩ := p
      by_cases hk : k = a
      · simp [lookupStr, hk]
      · simp only [List.map_cons, List.mem_cons] at h
        rcases h with h | h
        · exact absurd h.symm hk
        · simpa [lookupStr, hk] using ih h

theorem lookupStr_eq_none {a : String} {l : List (String × String)}
    (h : a ∉ l.map Prod.fst) : lookupStr a l = none := by
  induction l with
  | nil => rfl
  | cons p ps ih =>
      obtain ⟨k, v⟩ := p
      simp only [List.map_cons, List.mem_cons] at h
      push_neg at h
      simpa [lookupStr, Ne.symm h.1] using ih h.2

theorem colValue_isSome {attrs : List String} {r : List String × String} {a : String}
    (halign : r.1.length = attrs.length) (ha : a ∈ attrs ∨ a = "Decision") :
    (colValue attrs r a).isSome := by
  apply lookupStr_isSome
  rw [List.map_append, List.map_fst_zip _ _ (le_of_eq halign.symm)]
  rcases ha with h | h
  · exact List.mem_append_left _ h
  · exact List.mem_append_right _ (by simp [h])

theorem colValue_eq_none {attrs : List String} {r : List String × String} {a : String}
    (h1 : a ∉ attrs) (h2 : a ≠ "Decision") : colValue attrs r a = none := by
  apply lookupStr_eq_none
  rw [List.map_append]
  intro hmem
  rcases List.mem_append.mp hmem with h | h
  · obtain ⟨p, hp, hpa⟩ := List.mem_map.mp h
    exact h1 (hpa ▸ (List.of_mem_zip hp).1)
  · simp at h
    exact h2 h

theorem rowKey_eq_some {attrs sub : List String} {r : List String × String}
    (halign : r.1.length = attrs.length)
    (hok : ∀ a ∈ sub, a ∈ attrs ∨ a = "Decision") :
    rowKey attrs sub r = some (keyOf attrs sub r) := by
  apply mapOpt_eq_some_map
  intro a ha
  have hs := colValue_isSome halign (hok a ha)
  obtain ⟨v, hv⟩ := Option.isSome_iff_exists.mp hs
  simp [hv, cellVal]

theorem rowKey_eq_none {attrs sub : List String} {r : List String × String} {a : String}
    (ha : a ∈ sub) (h1 : a ∉ attrs) (h2 : a ≠ "Decision") :
    rowKey attrs sub r = none :=
  mapOpt_eq_none ha (colValue_eq_none h1 h2)

/-! ### The dictionary loop: `addToGroups` and `collectRows` -/

theorem keys_addToGroups (key : List String) (i : Nat)
    (acc : List (List String × List Nat)) :
    (addToGroups key i acc).map Prod.fst =
      if key ∈ acc.map Prod.fst then acc.map Prod.fst else acc.map Prod.fst ++ [key] := by
  induction acc with
  | nil => simp [addToGroups]
  | cons p ps ih =>
      obtain ⟨k, g⟩ := p
      by_cases hk : k = key
      · subst hk
        simp [addToGroups]
      · have hk' : ¬(key = k) := fun h => hk h.symm
        simp only [addToGroups, if_neg hk, List.map_cons, List.mem_cons]
        rw [ih]
        by_cases hm : key ∈ ps.map Prod.fst
        · simp [hm, hk']
        · simp [hm, hk']

theorem entry_addToGroups (k key : List String) (i : Nat)
    (acc : List (List String × List Nat)) :
    entry k (addToGroups key i acc) =
      entry k acc ++ if k = key then [i] else [] := by
  induction acc with
  | nil =>
      by_cases h : key = k
      · subst h
        simp [addToGroups, entry]
      · have h2 : ¬(k = key) := fun hh => h hh.symm
        simp [addToGroups, entry, h, h2]
  | cons p ps ih =>
      obtain ⟨k', g⟩ := p
      by_cases h1 : k' = key
      · subst h1
        by_cases h2 : k' = k
        · subst h2
          simp [addToGroups, entry]
        · have h3 : ¬(k = k') := fun hh => h2 hh.symm
          simp [addToGroups, entry, h2, h3]
      · by_cases h2 : k' = k
        · subst h2
          have h4 : ¬(k' = key) := h1
          simp [addToGroups, entry, h4]
        · simp [addToGroups, entry, h1, h2, ih]

theorem entry_collectRows (keyf : List String × String → List String) (k : List String)
    (rs : List (List String × String)) :
    ∀ (i : Nat) (acc : List (List String × List Nat)),
      entry k (collectRows keyf rs i acc) = entry k acc ++ idxFilter keyf k rs i := by
  induction rs with
  | nil => intro i acc; simp [collectRows, idxFilter]
  | cons r rs ih =>
      intro i acc
      simp only [collectRows, idxFilter]
      rw [ih, entry_addToGroups]
      by_cases h : keyf r = k
      · rw [if_pos h.symm, if_pos h, List.append_assoc]
        rfl
      · have h' : ¬(k = keyf r) := fun hh => h hh.symm
        rw [if_neg h', if_neg h, List.append_nil]

theorem keys_collectRows (keyf : List String × String → List String)
    (rs : List (List String × String)) :
    ∀ (i : Nat) (acc : List (List String × List Nat)),
      (collectRows keyf rs i acc).map Prod.fst =
        acc.map Prod.fst ++
          (uniqF (rs.map keyf)).filter (fun k => decide (k ∉ acc.map Prod.fst)) := by
  induction rs with
  | nil =>
      intro i acc
      simp only [collectRows, List.map_nil, uniqF, List.filter_nil, List.append_nil]
  | cons r rs ih =>
      intro i acc
      simp only [collectRows, List.map_cons, uniqF]
      rw [ih, keys_addToGroups]
      by_cases hm : keyf r ∈ acc.map Prod.fst
      · rw [if_pos hm]
        have hfr : (decide (keyf r ∉ acc.map Prod.fst)) = false := by simp [hm]
        rw [List.filter_cons, hfr]
        congr 1
        rw [List.filter_filter]
        apply List.filter_congr
        intro b _
        by_cases hb : b = keyf r
        · subst hb; simp [hm]
        · simp [hb]
      · rw [if_neg hm]
        have hfr : (decide (keyf r ∉ acc.map Prod.fst)) = true := by simp [hm]
        rw [List.filter_cons, hfr, List.append_assoc]
        congr 1
        simp only [List.singleton_append]
        congr 1
        rw [List.filter_filter]
        apply List.filter_congr
        intro b _
        by_cases hb : b = keyf r
        · subst hb; simp
        · simp [hb, List.mem_append]

theorem assoc_reconstruct (acc : List (List String × List Nat))
    (h : (acc.map Prod.fst).Nodup) :
    acc = (acc.map Prod.fst).map (fun k => (k, entry k acc)) := by
  induction acc with
  | nil => rfl
  | cons p ps ih =>
      obtain ⟨k, g⟩ := p
      simp only [List.map_cons, List.nodup_cons] at h
      have hk : entry k ((k, g) :: ps) = g := by simp [entry]
      simp only [List.map_cons, hk]
      congr 1
      conv_lhs => rw [ih h.2]
      apply List.map_congr_left
      intro a ha
      have hak : ¬(k = a) := fun hh => h.1 (hh ▸ ha)
      simp [entry, hak]

theorem keys_collectRows_nil (keyf : List String × String → List String)
    (rs : List (List String × String)) :
    (collectRows keyf rs 0 []).map Prod.fst = uniqF (rs.map keyf) := by
  rw [keys_collectRows]
  simp only [List.map_nil, List.nil_append]
  apply List.filter_eq_self.mpr
  intro a _
  simp

theorem collectRows_closed (keyf : List String × String → List String)
    (rs : List (List String × String)) :
    collectRows keyf rs 0 [] =
      (uniqF (rs.map keyf)).map (fun k => (k, idxFilter keyf k rs 0)) := by
  have hnod : ((collectRows keyf rs 0 []).map Prod.fst).Nodup := by
    rw [keys_collectRows_nil]; exact nodup_uniqF _
  conv_lhs => rw [assoc_reconstruct _ hnod]
  rw [keys_collectRows_nil]
  apply List.map_congr_left
  intro k _
  have he : entry k (collectRows keyf rs 0 []) = idxFilter keyf k rs 0 := by
    rw [entry_collectRows]
    simp [entry]
  rw [he]

theorem eqcGo_eq_collectRows (attrs sub : List String)
    (rs : List (List String × String))
    (hok : ∀ r ∈ rs, rowKey attrs sub r = some (keyOf attrs sub r)) :
    ∀ (i : Nat) (acc : List (List String × List Nat)),
      eqcGo attrs sub rs i acc = some (collectRows (keyOf attrs sub) rs i acc) := by
  induction rs with
  | nil => intro i acc; rfl
  | cons r rs ih =>
      intro i acc
      have h1 : rowKey attrs sub r = some (keyOf attrs sub r) := hok r (by simp)
      simp only [eqcGo, h1, Option.some_bind, collectRows]
      exact ih (fun x hx => hok x (by simp [hx])) (i + 1) _

/-- Closed form of `equivalence_classes` in the successful case. -/
theorem eqc_eq_groups (t : DecisionTable) (sub : List String)
    (halign : ∀ r ∈ t.rows, r.1.length = t.attrs.length)
    (hok : ∀ a ∈ sub, a ∈ t.attrs ∨ a = "Decision") :
    equivalence_classes t sub = some (eqcGroups (keyOf t.attrs sub) t.rows) := by
  unfold equivalence_classes
  rw [eqcGo_eq_collectRows t.attrs sub t.rows
    (fun r hr => rowKey_eq_some (halign r hr) hok)]
  rw [Option.map_some', collectRows_closed]
  unfold eqcGroups
  rw [List.map_map]
  rfl

/-! ### Lemmas about `idxFilter` -/

theorem mem_idxFilter {keyf : List String × String → List String} {k : List String} :
    ∀ {rs : List (List String × String)} {i j : Nat},
      j ∈ idxFilter keyf k rs i ↔
        i ≤ j ∧ ∃ r, rs.get? (j - i) = some r ∧ keyf r = k := by
  intro rs
  induction rs with
  | nil => intro i j; simp [idxFilter]
  | cons r rs ih =>
      intro i j
      by_cases h : keyf r = k
      · rw [idxFilter, if_pos h]
        constructor
        · intro hj
          rcases List.mem_cons.mp hj with rfl | hj'
          · exact ⟨le_refl j, r, by simp, h⟩
          · obtain ⟨h1, r', h2, h3⟩ := ih.mp hj'
            refine ⟨by omega, r', ?_, h3⟩
            have hd : j - i = (j - (i + 1)) + 1 := by omega
            rw [hd]
            simpa using h2
        · rintro ⟨h1, r', h2, h3⟩
          by_cases hji : j = i
          · subst hji
            exact List.mem_cons_self _ _
          · have hd : j - i = (j - (i + 1)) + 1 := by omega
            rw [hd] at h2
            exact List.mem_cons_of_mem _ (ih.mpr ⟨by omega, r', by simpa using h2, h3⟩)
      · rw [idxFilter, if_neg h]
        constructor
        · intro hj
          obtain ⟨h1, r', h2, h3⟩ := ih.mp hj
          refine ⟨by omega, r', ?_, h3⟩
          have hd : j - i = (j - (i + 1)) + 1 := by omega
          rw [hd]
          simpa using h2
        · rintro ⟨h1, r', h2, h3⟩
          by_cases hji : j = i
          · subst hji
            simp only [Nat.sub_self, List.get?] at h2
            cases h2
            exact absurd h3 h
          · have hd : j - i = (j - (i + 1)) + 1 := by omega
            rw [hd] at h2
            exact ih.mpr ⟨by omega, r', by simpa using h2, h3⟩

theorem idxFilter_ge {keyf : List String × String → List String} {k : List String}
    {rs : List (List String × String)} {i j : Nat} (h : j ∈ idxFilter keyf k rs i) :
    i ≤ j :=
  (mem_idxFilter.mp h).1

theorem idxFilter_sorted (keyf : List String × String → List String) (k : List String) :
    ∀ (rs : List (List String × String)) (i : Nat),
      (idxFilter keyf k rs i).Pairwise (· < ·) := by
  intro rs
  induction rs with
  | nil => intro i; simp [idxFilter]
  | cons r rs ih =>
      intro i
      by_cases h : keyf r = k
      · rw [idxFilter, if_pos h]
        refine List.pairwise_cons.mpr ⟨?_, ih (i + 1)⟩
        intro j hj
        have := idxFilter_ge hj
        omega
      · rw [idxFilter, if_neg h]
        exact ih (i + 1)

theorem idxFilter_ne_nil {keyf : List String × String → List String} {k : List String}
    {rs : List (List String × String)} (h : k ∈ rs.map keyf) (i : Nat) :
    idxFilter keyf k rs i ≠ [] := by
  obtain ⟨r, hr, hk⟩ := List.mem_map.mp h
  obtain ⟨m, hm⟩ := List.mem_iff_get?.mp hr
  have : (i + m) ∈ idxFilter keyf k rs i := by
    apply mem_idxFilter.mpr
    refine ⟨by omega, r, ?_, hk⟩
    have hd : i + m - i = m := by omega
    rw [hd]
    exact hm
  exact List.ne_nil_of_mem this

theorem headI_mem {l : List Nat} (h : l ≠ []) : l.headI ∈ l := by
  cases l with
  | nil => exact absurd rfl h
  | cons a as => simp

theorem uniqF_pairwise_head (keyf : List String × String → List String) :
    ∀ (rs : List (List String × String)) (i : Nat),
      (uniqF (rs.map keyf)).Pairwise
        (fun k k' => (idxFilter keyf k rs i).headI < (idxFilter keyf k' rs i).headI) := by
  intro rs
  induction rs with
  | nil => intro i; simp [uniqF]
  | cons r rs ih =>
      intro i
      simp only [List.map_cons, uniqF]
      refine List.pairwise_cons.mpr ⟨?_, ?_⟩
      · intro k' hk'
        have hne : k' ≠ keyf r := by
          have := List.of_mem_filter hk'
          simpa using this
        have hmem2 : k' ∈ rs.map keyf := mem_uniqF.mp (List.mem_of_mem_filter hk')
        have h1 : (idxFilter keyf (keyf r) (r :: rs) i).headI = i := by
          rw [idxFilter, if_pos rfl]
          rfl
        have h2 : idxFilter keyf k' (r :: rs) i = idxFilter keyf k' rs (i + 1) := by
          rw [idxFilter, if_neg (fun hh => hne hh.symm)]
        rw [h1, h2]
        have hnil : idxFilter keyf k' rs (i + 1) ≠ [] := idxFilter_ne_nil hmem2 (i + 1)
        have hh := headI_mem hnil
        have := idxFilter_ge hh
        omega
      · have base := (ih (i + 1)).filter (fun b => decide (b ≠ keyf r))
        refine base.imp_of_mem ?_
        intro a b ha hb hab
        have hna : a ≠ keyf r := by
          have := List.of_mem_filter ha
          simpa using this
        have hnb : b ≠ keyf r := by
          have := List.of_mem_filter hb
          simpa using this
        have ea : idxFilter keyf a (r :: rs) i = idxFilter keyf a rs (i + 1) := by
          rw [idxFilter, if_neg (fun hh => hna hh.symm)]
        have eb : idxFilter keyf b (r :: rs) i = idxFilter keyf b rs (i + 1) := by
          rw [idxFilter, if_neg (fun hh => hnb hh.symm)]
        rw [ea, eb]
        exact hab

/-! ### Canonicity: the output of `equivalence_classes` is determined by its
set of groups (ids ascending inside a group, groups ordered by least id) -/

/-- The canonical shape of partitions produced by `equivalence_classes`. -/
def CanonPart (p : List (List Nat)) : Prop :=
  (∀ g ∈ p, g ≠ [] ∧ g.Pairwise (· < ·)) ∧
    p.Pairwise (fun g h => g.headI < h.headI)

theorem eqcGroups_canon (keyf : List String × String → List String)
    (rs : List (List String × String)) : CanonPart (eqcGroups keyf rs) := by
  constructor
  · intro g hg
    obtain ⟨k, hk, rfl⟩ := List.mem_map.mp hg
    exact ⟨idxFilter_ne_nil (mem_uniqF.mp hk) 0, idxFilter_sorted keyf k rs 0⟩
  · unfold eqcGroups
    rw [List.pairwise_map]
    exact uniqF_pairwise_head keyf rs 0

theorem sorted_head_le {g : List Nat} (hs : g.Pairwise (· < ·)) :
    ∀ x ∈ g, g.headI ≤ x := by
  cases g with
  | nil => intro x hx; cases hx
  | cons a as =>
      intro x hx
      show a ≤ x
      rcases List.mem_cons.mp hx with rfl | hx'
      · exact le_refl x
      · exact le_of_lt ((List.pairwise_cons.mp hs).1 x hx')

theorem sorted_eq_of_memEq : ∀ {g h : List Nat}, g.Pairwise (· < ·) →
    h.Pairwise (· < ·) → (∀ x, x ∈ g ↔ x ∈ h) → g = h := by
  intro g
  induction g with
  | nil =>
      intro h _ _ hm
      cases h with
      | nil => rfl
      | cons b bs => exact absurd ((hm b).mpr (by simp)) (by simp)
  | cons a gs ih =>
      intro h hg hh hm
      cases h with
      | nil => exact absurd ((hm a).mp (by simp)) (by simp)
      | cons b hs =>
          have hab : a = b := by
            have h1 : a ∈ b :: hs := (hm a).mp (by simp)
            have h2 : b ∈ a :: gs := (hm b).mpr (by simp)
            have l1 := sorted_head_le hh a h1
            have l2 := sorted_head_le hg b h2
            simp only [List.headI] at l1 l2
            omega
          subst hab
          congr 1
          apply ih (List.pairwise_cons.mp hg).2 (List.pairwise_cons.mp hh).2
          intro x
          constructor
          · intro hx
            have hax : a < x := (List.pairwise_cons.mp hg).1 x hx
            rcases List.mem_cons.mp ((hm x).mp (List.mem_cons_of_mem _ hx)) with rfl | h2
            · omega
            · exact h2
          · intro hx
            have hax : a < x := (List.pairwise_cons.mp hh).1 x hx
            rcases List.mem_cons.mp ((hm x).mpr (List.mem_cons_of_mem _ hx)) with rfl | h2
            · omega
            · exact h2

theorem sorted_eq_of_toFinset_eq {g h : List Nat} (hg : g.Pairwise (· < ·))
    (hh : h.Pairwise (· < ·)) (hf : g.toFinset = h.toFinset) : g = h :=
  sorted_eq_of_memEq hg hh fun x => by
    rw [← List.mem_toFinset, hf, List.mem_toFinset]

/-- Unfolding of `sameGroups` to the existence of matching groups. -/
theorem sameGroups_iff_groupsEq {p q : List (List Nat)} :
    sameGroups p q ↔
      ∀ s : Finset Nat, (∃ g ∈ p, g.toFinset = s) ↔ ∃ h ∈ q, h.toFinset = s := by
  unfold sameGroups
  rw [Finset.ext_iff]
  constructor
  · intro h s
    have := h s
    simpa [List.mem_map] using this
  · intro h s
    have := h s
    simpa [List.mem_map] using this

theorem canon_unique : ∀ (p : List (List Nat)) (q : List (List Nat)),
    CanonPart p → CanonPart q → sameGroups p q → p = q := by
  intro p
  induction p with
  | nil =>
      intro q _ _ hEq
      rw [sameGroups_iff_groupsEq] at hEq
      cases q with
      | nil => rfl
      | cons h hs =>
          exfalso
          obtain ⟨g, hg, _⟩ := (hEq h.toFinset).mpr ⟨h, by simp, rfl⟩
          simp at hg
  | cons g P ih =>
      intro q hP hQ hEq0
      have hEq := sameGroups_iff_groupsEq.mp hEq0
      cases q with
      | nil =>
          exfalso
          obtain ⟨h, hh, _⟩ := (hEq g.toFinset).mp ⟨g, by simp, rfl⟩
          simp at hh
      | cons h Q =>
          obtain ⟨hPel, hPord⟩ := hP
          obtain ⟨hQel, hQord⟩ := hQ
          have key : ∀ a b : List Nat, a.Pairwise (· < ·) → b.Pairwise (· < ·) →
              a.toFinset = b.toFinset → a = b := fun a b ha hb =>
            sorted_eq_of_toFinset_eq ha hb
          obtain ⟨h0, hh0mem, hh0⟩ := (hEq g.toFinset).mp ⟨g, by simp, rfl⟩
          obtain ⟨g0, hg0mem, hg0⟩ := (hEq h.toFinset).mpr ⟨h, by simp, rfl⟩
          have hgh : g = h := by
            rcases List.mem_cons.mp hh0mem with rfl | hh0'
            · exact key g h0 (hPel g (by simp)).2 (hQel h0 (by simp)).2 hh0.symm
            · exfalso
              have lt1 : h.headI < h0.headI := (List.pairwise_cons.mp hQord).1 h0 hh0'
              have eg : g = h0 :=
                key g h0 (hPel g (by simp)).2 (hQel h0 (by simp [hh0'])).2 hh0.symm
              rcases List.mem_cons.mp hg0mem with rfl | hg0'
              · have eh : g0 = h :=
                  key g0 h (hPel g0 (by simp)).2 (hQel h (by simp)).2 hg0
                rw [← eh, ← eg] at lt1
                exact lt_irrefl _ lt1
              · have lt2 : g.headI < g0.headI := (List.pairwise_cons.mp hPord).1 g0 hg0'
                have eh : g0 = h :=
                  key g0 h (hPel g0 (by simp [hg0'])).2 (hQel h (by simp)).2 hg0
                rw [eg] at lt2
                rw [eh] at lt2
                omega
          subst hgh
          congr 1
          apply ih Q
          · exact ⟨fun x hx => hPel x (by simp [hx]), hPord.of_cons⟩
          · exact ⟨fun x hx => hQel x (by simp [hx]), hQord.of_cons⟩
          · rw [sameGroups_iff_groupsEq]
            intro s
            constructor
            · rintro ⟨g', hg', rfl⟩
              obtain ⟨h', hh', hfs⟩ := (hEq g'.toFinset).mp ⟨g', by simp [hg'], rfl⟩
              rcases List.mem_cons.mp hh' with rfl | hh''
              · exfalso
                have heq2 : g' = h' :=
                  key g' h' (hPel g' (by simp [hg'])).2 (hQel h' (by simp)).2
                    (by rw [hfs])
                have lt2 : h'.headI < g'.headI := (List.pairwise_cons.mp hPord).1 g' hg'
                rw [heq2] at lt2
                exact lt_irrefl _ lt2
              · exact ⟨h', hh'', by rw [hfs]⟩
            · rintro ⟨h', hh', rfl⟩
              obtain ⟨g', hg', hfs⟩ := (hEq h'.toFinset).mpr ⟨h', by simp [hh'], rfl⟩
              rcases List.mem_cons.mp hg' with rfl | hg''
              · exfalso
                have heq2 : g' = h' :=
                  key g' h' (hPel g' (by simp)).2 (hQel h' (by simp [hh'])).2
                    (by rw [hfs])
                have lt2 : g'.headI < h'.headI := (List.pairwise_cons.mp hQord).1 h' hh'
                rw [heq2] at lt2
                exact lt_irrefl _ lt2
              · exact ⟨g', hg'', by rw [hfs]⟩

theorem canon_sameGroups_iff {p q : List (List Nat)} (hp : CanonPart p)
    (hq : CanonPart q) : sameGroups p q ↔ p = q :=
  ⟨canon_unique p q hp hq, fun h => by subst h; rfl⟩

/-! ### Consequences for `equivalence_classes` on valid tables -/

theorem DecisionTable.Valid.align {t : DecisionTable} (hv : t.Valid) :
    ∀ r ∈ t.rows, r.1.length = t.attrs.length :=
  fun r hr => (hv.2.2.2.2 r hr).1

theorem subOK_of_sub {t : DecisionTable} {sub : List String}
    (hsub : ∀ a ∈ sub, a ∈ t.attrs) :
    ∀ a ∈ sub, a ∈ t.attrs ∨ a = "Decision" :=
  fun a ha => Or.inl (hsub a ha)

theorem eqc_some {t : DecisionTable} {sub : List String} (hv : t.Valid)
    (hsub : ∀ a ∈ sub, a ∈ t.attrs) :
    equivalence_classes t sub = some (eqcGroups (keyOf t.attrs sub) t.rows) :=
  eqc_eq_groups t sub hv.align (subOK_of_sub hsub)

theorem eqc_closed {t : DecisionTable} {sub : List String} {p : List (List Nat)}
    (hv : t.Valid) (hsub : ∀ a ∈ sub, a ∈ t.attrs)
    (h : equivalence_classes t sub = some p) :
    p = eqcGroups (keyOf t.attrs sub) t.rows := by
  rw [eqc_some hv hsub] at h
  exact (Option.some.inj h).symm

theorem eqc_canonPart {t : DecisionTable} {sub : List String} {p : List (List Nat)}
    (hv : t.Valid) (hsub : ∀ a ∈ sub, a ∈ t.attrs)
    (h : equivalence_classes t sub = some p) : CanonPart p := by
  rw [eqc_closed hv hsub h]
  exact eqcGroups_canon _ _

theorem keyOf_restrict {attrs sub : List String} {r r' : List String × String}
    (hsub : ∀ a ∈ sub, a ∈ attrs)
    (h : keyOf attrs attrs r = keyOf attrs attrs r') :
    keyOf attrs sub r = keyOf attrs sub r' := by
  unfold keyOf at h ⊢
  have hp := List.map_eq_map_iff.mp h
  exact List.map_eq_map_iff.mpr fun a ha => hp a (hsub a ha)

/-! ### `combinations`, `allCombos`, `reductsGo` -/

theorem mem_combinations : ∀ (r : Nat) (l : List String) (c : List String),
    c ∈ combinations r l ↔ c.Sublist l ∧ c.length = r := by
  intro r l
  induction l generalizing r with
  | nil =>
      intro c
      cases r with
      | zero =>
          simp only [combinations, List.mem_singleton]
          constructor
          · rintro rfl; exact ⟨List.Sublist.refl [], rfl⟩
          · rintro ⟨h, _⟩; simpa using h
      | succ n =>
          simp only [combinations, List.not_mem_nil, false_iff, not_and]
          intro h
          have : c = [] := by simpa using h
          subst this
          simp
  | cons a as ih =>
      intro c
      cases r with
      | zero =>
          simp only [combinations, List.mem_singleton]
          constructor
          · rintro rfl; exact ⟨List.nil_sublist _, rfl⟩
          · rintro ⟨_, h⟩
            exact List.length_eq_zero.mp h
      | succ n =>
          simp only [combinations, List.mem_append, List.mem_map]
          constructor
          · rintro (⟨c', hc', rfl⟩ | h)
            · obtain ⟨hs, hl⟩ := (ih n c').mp hc'
              exact ⟨List.Sublist.cons₂ a hs, by simp [hl]⟩
            · obtain ⟨hs, hl⟩ := (ih (n + 1) c).mp h
              exact ⟨hs.cons a, hl⟩
          · rintro ⟨hs, hl⟩
            rcases List.sublist_cons_iff.mp hs with h | ⟨c', rfl, hc'⟩
            · exact Or.inr ((ih (n + 1) c).mpr ⟨h, hl⟩)
            · refine Or.inl ⟨c', (ih n c').mpr ⟨hc', ?_⟩, rfl⟩
              simpa using hl

theorem mem_combosFrom {attrs : List String} :
    ∀ {rs : List Nat} {c : List String},
      c ∈ combosFrom attrs rs ↔ ∃ r ∈ rs, c ∈ combinations r attrs := by
  intro rs
  induction rs with
  | nil => intro c; simp [combosFrom]
  | cons r rs ih =>
      intro c
      simp only [combosFrom, List.mem_append, ih, List.mem_cons]
      constructor
      · rintro (h | ⟨r', hr', hc⟩)
        · exact ⟨r, Or.inl rfl, h⟩
        · exact ⟨r', Or.inr hr', hc⟩
      · rintro ⟨r', hr' | hr', hc⟩
        · exact Or.inl (hr' ▸ hc)
        · exact Or.inr ⟨r', hr', hc⟩

theorem mem_allCombos {attrs c : List String} :
    c ∈ allCombos attrs ↔ c.Sublist attrs ∧ c ≠ [] := by
  unfold allCombos
  rw [mem_combosFrom]
  constructor
  · rintro ⟨r, hr, hc⟩
    obtain ⟨hs, hl⟩ := (mem_combinations r attrs c).mp hc
    simp only [List.mem_map, List.mem_range] at hr
    obtain ⟨x, _, hx⟩ := hr
    refine ⟨hs, ?_⟩
    intro hnil
    subst hnil
    simp at hl
    omega
  · rintro ⟨hs, hne⟩
    refine ⟨c.length, ?_, (mem_combinations _ _ _).mpr ⟨hs, rfl⟩⟩
    simp only [List.mem_map, List.mem_range]
    have h1 : 1 ≤ c.length := by
      cases c with
      | nil => exact absurd rfl hne
      | cons x xs => simp
    have h2 : c.length ≤ attrs.length := hs.length_le
    exact ⟨c.length - 1, by omega, by omega⟩

theorem reductsGo_isSome {t : DecisionTable} {full : List (List Nat)} :
    ∀ {cs : List (List String)},
      (∀ c ∈ cs, (equivalence_classes t c).isSome) → (reductsGo t full cs).isSome := by
  intro cs
  induction cs with
  | nil => intro _; simp [reductsGo]
  | cons c cs ih =>
      intro h
      obtain ⟨p, hp⟩ := Option.isSome_iff_exists.mp (h c (by simp))
      obtain ⟨rest, hrest⟩ :=
        Option.isSome_iff_exists.mp (ih fun x hx => h x (by simp [hx]))
      simp [reductsGo, hp, hrest]

theorem mem_reductsGo {t : DecisionTable} {full : List (List Nat)} :
    ∀ {cs : List (List String)} {out : List (List String)},
      reductsGo t full cs = some out →
        ∀ c, (c ∈ out ↔ c ∈ cs ∧ equivalence_classes t c = some full) := by
  intro cs
  induction cs with
  | nil =>
      intro out h c
      simp only [reductsGo, Option.some.injEq] at h
      subst h
      simp
  | cons c' cs ih =>
      intro out h c
      cases hp : equivalence_classes t c' with
      | none => rw [reductsGo, hp] at h; cases h
      | some p =>
          cases hrest : reductsGo t full cs with
          | none => rw [reductsGo, hp, hrest] at h; cases h
          | some rest =>
              rw [reductsGo, hp, hrest] at h
              have hsome : some (if p = full then c' :: rest else rest) = some out := h
              have hout := Option.some.inj hsome
              subst hout
              by_cases hfull : p = full
              · rw [if_pos hfull]
                simp only [List.mem_cons]
                constructor
                · rintro (rfl | hc)
                  · exact ⟨Or.inl rfl, hfull ▸ hp⟩
                  · obtain ⟨h1, h2⟩ := (ih hrest c).mp hc
                    exact ⟨Or.inr h1, h2⟩
                · rintro ⟨rfl | h1, h2⟩
                  · exact Or.inl rfl
                  · exact Or.inr ((ih hrest c).mpr ⟨h1, h2⟩)
              · rw [if_neg hfull]
                rw [ih hrest c]
                simp only [List.mem_cons]
                constructor
                · rintro ⟨h1, h2⟩
                  exact ⟨Or.inr h1, h2⟩
                · rintro ⟨rfl | h1, h2⟩
                  · rw [hp] at h2
                    exact absurd (Option.some.inj h2) hfull
                  · exact ⟨h1, h2⟩

theorem mem_idxFilter_zero {keyf : List String × String → List String}
    {k : List String} {rs : List (List String × String)} {j : Nat} :
    j ∈ idxFilter keyf k rs 0 ↔ ∃ r, rs.get? j = some r ∧ keyf r = k := by
  rw [mem_idxFilter]
  simp

/-! ### Claim theorems -/

theorem eqc_disjoint {t : DecisionTable} {sub : List String} {gs : List (List Nat)}
    (hv : t.Valid) (hsub : ∀ a ∈ sub, a ∈ t.attrs)
    (hgs : equivalence_classes t sub = some gs) :
    gs.Pairwise (fun g h => ∀ x ∈ g, x ∉ h) := by
  have hclosed := eqc_closed hv hsub hgs
  subst hclosed
  unfold eqcGroups
  rw [List.pairwise_map]
  have hnd := nodup_uniqF (t.rows.map (keyOf t.attrs sub))
  refine List.Pairwise.imp ?_ hnd
  intro k k' hkk' x hx hx'
  obtain ⟨r, hr1, hr2⟩ := mem_idxFilter_zero.mp hx
  obtain ⟨r', hr1', hr2'⟩ := mem_idxFilter_zero.mp hx'
  rw [hr1] at hr1'
  cases hr1'
  exact hkk' (hr2 ▸ hr2')

theorem groups_mem_unique {t : DecisionTable} {sub : List String} {gs : List (List Nat)}
    (hv : t.Valid) (hsub : ∀ a ∈ sub, a ∈ t.attrs)
    (hgs : equivalence_classes t sub = some gs) {cls cls' : List Nat} {j : Nat}
    (h1 : cls ∈ gs) (h2 : cls' ∈ gs) (hj : j ∈ cls) (hj' : j ∈ cls') : cls = cls' := by
  have hd := eqc_disjoint hv hsub hgs
  by_contra hne
  have hsymm : Symmetric (fun (g h : List Nat) => ∀ x ∈ g, x ∉ h) :=
    fun a b hab x hx hx' => hab x hx' hx
  exact hd.forall hsymm h1 h2 hne j hj hj'

/-- C4: on a valid table, for every non-empty subset of the condition
attributes, `equivalence_classes` returns pairwise disjoint non-empty groups
whose union is exactly the set of all object ids of the table. -/
theorem c4_partition_valid (t : DecisionTable) (sub : List String)
    (gs : List (List Nat)) (hv : t.Valid) (hsub : ∀ a ∈ sub, a ∈ t.attrs)
    (hne : sub ≠ []) (hgs : equivalence_classes t sub = some gs) :
    (∀ g ∈ gs, g ≠ []) ∧ gs.Pairwise (fun g h => ∀ x ∈ g, x ∉ h) ∧
      ∀ j, (∃ g ∈ gs, j ∈ g) ↔ j < t.rows.length := by
  refine ⟨?_, eqc_disjoint hv hsub hgs, ?_⟩
  · have hclosed := eqc_closed hv hsub hgs
    subst hclosed
    exact fun g hg => ((eqcGroups_canon _ _).1 g hg).1
  · have hclosed := eqc_closed hv hsub hgs
    subst hclosed
    intro j
    constructor
    · rintro ⟨g, hg, hj⟩
      obtain ⟨k, hk, rfl⟩ := List.mem_map.mp hg
      obtain ⟨r, hr, _⟩ := mem_idxFilter_zero.mp hj
      obtain ⟨hlt, _⟩ := List.get?_eq_some.mp hr
      exact hlt
    · intro hj
      have hr : t.rows.get? j = some (t.rows.get ⟨j, hj⟩) :=
        List.get?_eq_some.mpr ⟨hj, rfl⟩
      refine ⟨idxFilter (keyOf t.attrs sub) (keyOf t.attrs sub (t.rows.get ⟨j, hj⟩))
        t.rows 0, ?_, ?_⟩
      · exact List.mem_map_of_mem _
          (mem_uniqF.mpr (List.mem_map_of_mem _ (List.get?_mem hr)))
      · exact mem_idxFilter_zero.mpr ⟨_, hr, rfl⟩

/-- C4 witness at the section-8 example table. -/
theorem c4_witness :
    (∀ g ∈ ([[0, 1], [2]] : List (List Nat)), g ≠ []) ∧
      ([[0, 1], [2]] : List (List Nat)).Pairwise (fun g h => ∀ x ∈ g, x ∉ h) ∧
      ∀ j, (∃ g ∈ ([[0, 1], [2]] : List (List Nat)), j ∈ g) ↔ j < exTable.rows.length :=
  c4_partition_valid exTable ["A1", "A2"] [[0, 1], [2]] (by decide) (by decide)
    (by decide) (by decide)

/-- C6: the partition under the full condition-attribute set refines the
partition under any subset of these attributes: every full-set equivalence
class is contained in some subset equivalence class. -/
theorem c6_full_refines (t : DecisionTable) (sub : List String)
    (gf gsub : List (List Nat)) (hv : t.Valid) (hsub : ∀ a ∈ sub, a ∈ t.attrs)
    (hf : equivalence_classes t t.attrs = some gf)
    (hs : equivalence_classes t sub = some gsub) :
    ∀ g ∈ gf, ∃ h ∈ gsub, ∀ i ∈ g, i ∈ h := by
  have hcf := eqc_closed hv (fun a ha => ha) hf
  have hcs := eqc_closed hv hsub hs
  subst hcf
  subst hcs
  intro g hg
  obtain ⟨k, hk, rfl⟩ := List.mem_map.mp hg
  have hnil : idxFilter (keyOf t.attrs t.attrs) k t.rows 0 ≠ [] :=
    idxFilter_ne_nil (mem_uniqF.mp hk) 0
  obtain ⟨r0, hr0, hk0⟩ := mem_idxFilter_zero.mp (headI_mem hnil)
  refine ⟨idxFilter (keyOf t.attrs sub) (keyOf t.attrs sub r0) t.rows 0, ?_, ?_⟩
  · exact List.mem_map_of_mem _
      (mem_uniqF.mpr (List.mem_map_of_mem _ (List.get?_mem hr0)))
  · intro i hi
    obtain ⟨ri, hri, hki⟩ := mem_idxFilter_zero.mp hi
    exact mem_idxFilter_zero.mpr ⟨ri, hri, keyOf_restrict hsub (by rw [hki, hk0])⟩

/-- C6 witness at the section-8 example table, instantiated at the first
full-attribute group. -/
theorem c6_witness :
    ∃ h ∈ ([[0, 1, 2]] : List (List Nat)), ∀ i ∈ ([0, 1] : List Nat), i ∈ h :=
  c6_full_refines exTable ["A1"] [[0, 1], [2]] [[0, 1, 2]] (by decide) (by decide)
    (by decide) (by decide) [0, 1] (by decide)

/-- C9 counterexample: "Decision" is not a condition attribute of the example
table, yet `equivalence_classes` succeeds on the subset ["Decision"] instead
of failing: the claimed error condition is wrong. -/
theorem c9_counterexample :
    "Decision" ∉ exTable.attrs ∧
      equivalence_classes exTable ["Decision"] = some [[0, 1], [2]] := by
  decide

/-- C9 amended: on a valid table, the partition operation fails exactly when
the requested subset mentions a name that is neither a condition attribute
nor the Decision column; in particular it never errors on subsets of valid
condition attributes. -/
theorem c9_amended (t : DecisionTable) (sub : List String) (hv : t.Valid) :
    ((∃ a ∈ sub, a ∉ t.attrs ∧ a ≠ "Decision") → equivalence_classes t sub = none) ∧
      ((∀ a ∈ sub, a ∈ t.attrs ∨ a = "Decision") →
        (equivalence_classes t sub).isSome) := by
  constructor
  · rintro ⟨a, ha, h1, h2⟩
    have hlen := hv.2.2.2.1
    unfold equivalence_classes
    cases hrows : t.rows with
    | nil => rw [hrows] at hlen; simp at hlen
    | cons r rs =>
        have hkey : rowKey t.attrs sub r = none := rowKey_eq_none ha h1 h2
        simp [eqcGo, hkey]
  · intro hok
    rw [eqc_eq_groups t sub hv.align hok]
    rfl

/-- C9 amended witness at the section-8 example table. -/
theorem c9_amended_witness :
    ((∃ a ∈ ["A1", "B9"], a ∉ exTable.attrs ∧ a ≠ "Decision") →
        equivalence_classes exTable ["A1", "B9"] = none) ∧
      ((∀ a ∈ ["A1", "B9"], a ∈ exTable.attrs ∨ a = "Decision") →
        (equivalence_classes exTable ["A1", "B9"]).isSome) :=
  c9_amended exTable ["A1", "B9"] (by decide)

/-- C5: on a valid table, `reducts` succeeds, the full condition-attribute
set is always among the returned subsets (so the result is non-empty), and
every returned subset induces a partition set-equal to the full one. -/
theorem c5_full_set_member (t : DecisionTable) (hv : t.Valid) :
    ∃ rl, reducts t t.attrs = some rl ∧ t.attrs ∈ rl ∧ rl ≠ [] ∧
      ∀ c ∈ rl, ∃ p full, equivalence_classes t c = some p ∧
        equivalence_classes t t.attrs = some full ∧ sameGroups p full := by
  have hfull := eqc_some hv (fun a ha => ha)
  have hsome : (reductsGo t (eqcGroups (keyOf t.attrs t.attrs) t.rows)
      (allCombos t.attrs)).isSome := by
    apply reductsGo_isSome
    intro c hc
    obtain ⟨hsub, _⟩ := mem_allCombos.mp hc
    rw [eqc_some hv (fun a ha => hsub.subset ha)]
    rfl
  obtain ⟨rl, hrl⟩ := Option.isSome_iff_exists.mp hsome
  have hred : reducts t t.attrs = some rl := by
    unfold reducts
    rw [hfull]
    exact hrl
  have hmem : t.attrs ∈ rl :=
    (mem_reductsGo hrl t.attrs).mpr
      ⟨mem_allCombos.mpr ⟨List.Sublist.refl _, hv.1⟩, hfull⟩
  refine ⟨rl, hred, hmem, List.ne_nil_of_mem hmem, ?_⟩
  intro c hc
  obtain ⟨_, hceq⟩ := (mem_reductsGo hrl c).mp hc
  exact ⟨_, _, hceq, hfull, by rfl⟩

/-- C5 witness at the section-8 example table. -/
theorem c5_witness :
    ∃ rl, reducts exTable exTable.attrs = some rl ∧ exTable.attrs ∈ rl ∧
      rl ≠ [] ∧ ∀ c ∈ rl, ∃ p full, equivalence_classes exTable c = some p ∧
        equivalence_classes exTable exTable.attrs = some full ∧ sameGroups p full :=
  c5_full_set_member exTable (by decide)

/-- C1: on a valid table, the reduct finder collects exactly the non-empty
subsets of the condition attributes whose induced partition has the same set
of groups (as sets of object ids) as the full-attribute partition: the list
equality test used by the code decides set-of-groups equality. -/
theorem c1_reducts_iff (t : DecisionTable) (hv : t.Valid) (rl : List (List String))
    (hrl : reducts t t.attrs = some rl) (c : List String) :
    c ∈ rl ↔ c.Sublist t.attrs ∧ c ≠ [] ∧
      ∃ p full, equivalence_classes t c = some p ∧
        equivalence_classes t t.attrs = some full ∧ sameGroups p full := by
  have hfull := eqc_some hv (fun a ha => ha)
  unfold reducts at hrl
  rw [hfull] at hrl
  have hgo : reductsGo t (eqcGroups (keyOf t.attrs t.attrs) t.rows)
      (allCombos t.attrs) = some rl := hrl
  constructor
  · intro hc
    obtain ⟨hcall, hceq⟩ := (mem_reductsGo hgo c).mp hc
    obtain ⟨hsub, hne⟩ := mem_allCombos.mp hcall
    exact ⟨hsub, hne, _, _, hceq, hfull, by rfl⟩
  · rintro ⟨hsub, hne, p, full', hp, hfull', hsg⟩
    apply (mem_reductsGo hgo c).mpr
    refine ⟨mem_allCombos.mpr ⟨hsub, hne⟩, ?_⟩
    have hfe : full' = eqcGroups (keyOf t.attrs t.attrs) t.rows := by
      rw [hfull] at hfull'
      exact (Option.some.inj hfull').symm
    have hcp : CanonPart p := eqc_canonPart hv (fun a ha => hsub.subset ha) hp
    have hcf : CanonPart full' := by
      rw [hfe]
      exact eqcGroups_canon _ _
    have hpe : p = full' := (canon_sameGroups_iff hcp hcf).mp hsg
    rw [hp, hpe, hfe]

/-- C1 witness at the section-8 example table. -/
theorem c1_witness :
    ["A2"] ∈ ([["A2"], ["A1", "A2"]] : List (List String)) ↔
      List.Sublist ["A2"] exTable.attrs ∧ ["A2"] ≠ [] ∧
        ∃ p full, equivalence_classes exTable ["A2"] = some p ∧
          equivalence_classes exTable exTable.attrs = some full ∧ sameGroups p full :=
  c1_reducts_iff exTable (by decide) [["A2"], ["A1", "A2"]] (by decide) ["A2"]

/-! ### Lemmas about `luFold`, `pySortedSet` and `lower_upper` -/

theorem foldl_append_pair {α : Type} (u v : α → List Nat) :
    ∀ (eq : List α) (acc : List Nat × List Nat),
      List.foldl (fun lu cls => (lu.1 ++ u cls, lu.2 ++ v cls)) acc eq =
        (acc.1 ++ (List.foldl (fun lu cls => (lu.1 ++ u cls, lu.2 ++ v cls)) ([], []) eq).1,
          acc.2 ++ (List.foldl (fun lu cls => (lu.1 ++ u cls, lu.2 ++ v cls)) ([], []) eq).2) := by
  intro eq
  induction eq with
  | nil => intro acc; simp
  | cons cls eq ih =>
      intro acc
      rw [List.foldl_cons, List.foldl_cons, ih, ih ([] ++ u cls, [] ++ v cls)]
      simp [List.append_assoc]

theorem luFold_step_eq (t : DecisionTable) (dv : String) :
    (fun (lu : List Nat × List Nat) cls =>
        if clsDecs t cls = {dv} then (lu.1 ++ cls, lu.2 ++ cls)
        else if dv ∈ clsDecs t cls then (lu.1, lu.2 ++ cls)
        else lu) =
      fun (lu : List Nat × List Nat) cls =>
        (lu.1 ++ lowAdd t dv cls, lu.2 ++ upAdd t dv cls) := by
  funext lu cls
  unfold lowAdd upAdd
  by_cases h1 : clsDecs t cls = {dv}
  · simp [h1]
  · by_cases h2 : dv ∈ clsDecs t cls
    · simp [h1, h2]
    · simp [h1, h2]

theorem luFold_nice (t : DecisionTable) (dv : String) (eq : List (List Nat)) :
    luFold t dv eq =
      List.foldl (fun lu cls => (lu.1 ++ lowAdd t dv cls, lu.2 ++ upAdd t dv cls))
        ([], []) eq := by
  unfold luFold
  rw [luFold_step_eq]

theorem luFold_cons (t : DecisionTable) (dv : String) (cls : List Nat)
    (eq : List (List Nat)) :
    luFold t dv (cls :: eq) =
      (lowAdd t dv cls ++ (luFold t dv eq).1, upAdd t dv cls ++ (luFold t dv eq).2) := by
  rw [luFold_nice, luFold_nice, List.foldl_cons, foldl_append_pair]
  simp

theorem mem_lowAdd {t : DecisionTable} {dv : String} {cls : List Nat} {j : Nat} :
    j ∈ lowAdd t dv cls ↔ j ∈ cls ∧ clsDecs t cls = {dv} := by
  unfold lowAdd
  by_cases h : clsDecs t cls = {dv} <;> simp [h]

theorem mem_upAdd {t : DecisionTable} {dv : String} {cls : List Nat} {j : Nat} :
    j ∈ upAdd t dv cls ↔ j ∈ cls ∧ dv ∈ clsDecs t cls := by
  unfold upAdd
  by_cases h1 : clsDecs t cls = {dv}
  · simp [h1]
  · by_cases h2 : dv ∈ clsDecs t cls <;> simp [h1, h2]

theorem mem_luFold_low {t : DecisionTable} {dv : String} :
    ∀ {eq : List (List Nat)} {j : Nat},
      j ∈ (luFold t dv eq).1 ↔ ∃ cls ∈ eq, j ∈ cls ∧ clsDecs t cls = {dv} := by
  intro eq
  induction eq with
  | nil => intro j; simp [luFold]
  | cons cls eq ih =>
      intro j
      rw [luFold_cons]
      simp only [List.mem_append, mem_lowAdd, List.mem_cons, ih]
      constructor
      · rintro (⟨h1, h2⟩ | ⟨c, hc, h1, h2⟩)
        · exact ⟨cls, Or.inl rfl, h1, h2⟩
        · exact ⟨c, Or.inr hc, h1, h2⟩
      · rintro ⟨c, rfl | hc, h1, h2⟩
        · exact Or.inl ⟨h1, h2⟩
        · exact Or.inr ⟨c, hc, h1, h2⟩

theorem mem_luFold_up {t : DecisionTable} {dv : String} :
    ∀ {eq : List (List Nat)} {j : Nat},
      j ∈ (luFold t dv eq).2 ↔ ∃ cls ∈ eq, j ∈ cls ∧ dv ∈ clsDecs t cls := by
  intro eq
  induction eq with
  | nil => intro j; simp [luFold]
  | cons cls eq ih =>
      intro j
      rw [luFold_cons]
      simp only [List.mem_append, mem_upAdd, List.mem_cons, ih]
      constructor
      · rintro (⟨h1, h2⟩ | ⟨c, hc, h1, h2⟩)
        · exact ⟨cls, Or.inl rfl, h1, h2⟩
        · exact ⟨c, Or.inr hc, h1, h2⟩
      · rintro ⟨c, rfl | hc, h1, h2⟩
        · exact Or.inl ⟨h1, h2⟩
        · exact Or.inr ⟨c, hc, h1, h2⟩

theorem mem_pySortedSet {α : Type} [LinearOrder α] [DecidableEq α] {l : List α} {x : α} :
    x ∈ pySortedSet l ↔ x ∈ l := by
  unfold pySortedSet
  rw [(List.perm_insertionSort (· ≤ ·) l.dedup).mem_iff, List.mem_dedup]

theorem pySortedSet_sorted {α : Type} [LinearOrder α] [DecidableEq α] (l : List α) :
    (pySortedSet l).Sorted (· ≤ ·) :=
  List.sorted_insertionSort _ _

theorem pySortedSet_nodup {α : Type} [LinearOrder α] [DecidableEq α] (l : List α) :
    (pySortedSet l).Nodup :=
  ((List.perm_insertionSort (· ≤ ·) l.dedup).nodup_iff).mpr (List.nodup_dedup l)

theorem pySortedSet_sorted_lt {α : Type} [LinearOrder α] [DecidableEq α] (l : List α) :
    (pySortedSet l).Sorted (· < ·) :=
  (pySortedSet_sorted l).lt_of_le (pySortedSet_nodup l)

theorem pySortedSet_eq_nil_iff {α : Type} [LinearOrder α] [DecidableEq α] {l : List α} :
    pySortedSet l = [] ↔ l = [] := by
  constructor
  · intro h
    cases hl : l with
    | nil => rfl
    | cons x xs =>
        exfalso
        have hx : x ∈ pySortedSet l := mem_pySortedSet.mpr (by simp [hl])
        rw [h] at hx
        exact List.not_mem_nil x hx
  · rintro rfl
    rfl

theorem pySortedSet_eq_of_memEq {a b : List Nat} (h : ∀ x, x ∈ a ↔ x ∈ b) :
    pySortedSet a = pySortedSet b :=
  sorted_eq_of_memEq (pySortedSet_sorted_lt a) (pySortedSet_sorted_lt b)
    fun x => by rw [mem_pySortedSet, mem_pySortedSet, h x]

theorem lower_upper_some {t : DecisionTable} {sub : List String} {dv : String}
    {l u : List Nat} (h : lower_upper t sub dv = some (l, u)) :
    ∃ eq, equivalence_classes t sub = some eq ∧
      l = pySortedSet (luFold t dv eq).1 ∧ u = pySortedSet (luFold t dv eq).2 := by
  unfold lower_upper at h
  cases heq : equivalence_classes t sub with
  | none => rw [heq] at h; cases h
  | some eq =>
      rw [heq, Option.map_some'] at h
      have h2 := Option.some.inj h
      injection h2 with h3 h4
      exact ⟨eq, rfl, h3.symm, h4.symm⟩

theorem lower_upper_eq {t : DecisionTable} {sub : List String} {dv : String}
    {eq : List (List Nat)} (h : equivalence_classes t sub = some eq) :
    lower_upper t sub dv =
      some (pySortedSet (luFold t dv eq).1, pySortedSet (luFold t dv eq).2) := by
  unfold lower_upper
  rw [h, Option.map_some']

theorem clsDecs_eq_singleton_iff {t : DecisionTable} {cls : List Nat} {dv : String} :
    clsDecs t cls = {dv} ↔ cls ≠ [] ∧ ∀ j ∈ cls, decisionOf t j = dv := by
  unfold clsDecs
  constructor
  · intro h
    constructor
    · intro hnil
      subst hnil
      simp at h
      exact (Finset.singleton_ne_empty dv) h.symm
    · intro j hj
      have hmem : decisionOf t j ∈ ({dv} : Finset String) :=
        h ▸ List.mem_toFinset.mpr (List.mem_map_of_mem _ hj)
      simpa using hmem
  · rintro ⟨hnil, hall⟩
    apply Finset.ext
    intro x
    simp only [List.mem_toFinset, List.mem_map, Finset.mem_singleton]
    constructor
    · rintro ⟨j, hj, rfl⟩
      exact hall j hj
    · rintro rfl
      cases cls with
      | nil => exact absurd rfl hnil
      | cons j js => exact ⟨j, by simp, hall j (by simp)⟩

theorem mem_clsDecs_iff {t : DecisionTable} {cls : List Nat} {dv : String} :
    dv ∈ clsDecs t cls ↔ ∃ j ∈ cls, decisionOf t j = dv := by
  unfold clsDecs
  simp

theorem mem_class_lt {t : DecisionTable} {sub : List String} {gs : List (List Nat)}
    (hv : t.Valid) (hsub : ∀ a ∈ sub, a ∈ t.attrs)
    (hgs : equivalence_classes t sub = some gs) {cls : List Nat} {j : Nat}
    (hcls : cls ∈ gs) (hj : j ∈ cls) : j < t.rows.length := by
  have hclosed := eqc_closed hv hsub hgs
  subst hclosed
  obtain ⟨k, hk, rfl⟩ := List.mem_map.mp hcls
  obtain ⟨r, hr, _⟩ := mem_idxFilter_zero.mp hj
  obtain ⟨hlt, _⟩ := List.get?_eq_some.mp hr
  exact hlt

theorem decisionOf_mem {t : DecisionTable} {j : Nat} (hj : j < t.rows.length) :
    decisionOf t j ∈ t.rows.map Prod.snd := by
  unfold decisionOf
  have hr : t.rows.get? j = some (t.rows.get ⟨j, hj⟩) := List.get?_eq_some.mpr ⟨hj, rfl⟩
  rw [List.getD_eq_get?, hr]
  exact List.mem_map_of_mem _ (List.get?_mem hr)

/-- C3: the lower approximation is contained in the upper one, and the
boundary is disjoint from the lower approximation. -/
theorem c3_lower_subset_upper (t : DecisionTable) (sub : List String) (dv : String)
    (l u : List Nat) (_hv : t.Valid) (_hsub : ∀ a ∈ sub, a ∈ t.attrs)
    (hlu : lower_upper t sub dv = some (l, u)) :
    (∀ x ∈ l, x ∈ u) ∧ ∀ x ∈ boundary l u, x ∉ l := by
  obtain ⟨eq, heq, hl, hu⟩ := lower_upper_some hlu
  subst hl
  subst hu
  constructor
  · intro x hx
    rw [mem_pySortedSet, mem_luFold_low] at hx
    rw [mem_pySortedSet, mem_luFold_up]
    obtain ⟨cls, hcls, hxc, hsing⟩ := hx
    exact ⟨cls, hcls, hxc, hsing ▸ Finset.mem_singleton_self dv⟩
  · intro x hx
    unfold boundary at hx
    rw [mem_pySortedSet, List.mem_filter] at hx
    simpa using hx.2

/-- C3 witness at the section-8 example table. -/
theorem c3_witness :
    (∀ x ∈ ([0, 1] : List Nat), x ∈ ([0, 1] : List Nat)) ∧
      ∀ x ∈ boundary [0, 1] [0, 1], x ∉ ([0, 1] : List Nat) :=
  c3_lower_subset_upper exTable ["A1", "A2"] "P" [0, 1] [0, 1] (by decide) (by decide)
    (by decide)

/-- C7: `lower_upper` classifies each equivalence class by its decisions:
all-matching classes go to both approximations, mixed classes to the upper
only, non-matching classes to neither; lower and upper are sorted duplicate
free id sequences. -/
theorem c7_classification (t : DecisionTable) (sub : List String) (dv : String)
    (gs : List (List Nat)) (l u : List Nat) (hv : t.Valid)
    (hsub : ∀ a ∈ sub, a ∈ t.attrs) (hgs : equivalence_classes t sub = some gs)
    (hlu : lower_upper t sub dv = some (l, u)) :
    (∀ cls ∈ gs, (∀ j ∈ cls, decisionOf t j = dv) → ∀ j ∈ cls, j ∈ l ∧ j ∈ u) ∧
      (∀ cls ∈ gs, (∃ j ∈ cls, decisionOf t j = dv) →
        (∃ j ∈ cls, decisionOf t j ≠ dv) → ∀ j ∈ cls, j ∈ u ∧ j ∉ l) ∧
      (∀ cls ∈ gs, (∀ j ∈ cls, decisionOf t j ≠ dv) → ∀ j ∈ cls, j ∉ l ∧ j ∉ u) ∧
      l.Sorted (· ≤ ·) ∧ l.Nodup ∧ u.Sorted (· ≤ ·) ∧ u.Nodup := by
  obtain ⟨eq, heq, hl, hu⟩ := lower_upper_some hlu
  rw [hgs] at heq
  have heq2 := Option.some.inj heq
  subst heq2
  subst hl
  subst hu
  refine ⟨?_, ?_, ?_, pySortedSet_sorted _, pySortedSet_nodup _,
    pySortedSet_sorted _, pySortedSet_nodup _⟩
  · intro cls hcls hall j hj
    have hsing : clsDecs t cls = {dv} :=
      clsDecs_eq_singleton_iff.mpr ⟨List.ne_nil_of_mem hj, hall⟩
    constructor
    · rw [mem_pySortedSet, mem_luFold_low]
      exact ⟨cls, hcls, hj, hsing⟩
    · rw [mem_pySortedSet, mem_luFold_up]
      exact ⟨cls, hcls, hj, hsing ▸ Finset.mem_singleton_self dv⟩
  · intro cls hcls hex hnex j hj
    constructor
    · rw [mem_pySortedSet, mem_luFold_up]
      obtain ⟨j0, hj0, hd0⟩ := hex
      exact ⟨cls, hcls, hj, mem_clsDecs_iff.mpr ⟨j0, hj0, hd0⟩⟩
    · intro hjl
      rw [mem_pySortedSet, mem_luFold_low] at hjl
      obtain ⟨cls', hcls', hj', hsing'⟩ := hjl
      have hcc : cls' = cls := groups_mem_unique hv hsub hgs hcls' hcls hj' hj
      subst hcc
      obtain ⟨j1, hj1, hd1⟩ := hnex
      exact hd1 ((clsDecs_eq_singleton_iff.mp hsing').2 j1 hj1)
  · intro cls hcls hnone j hj
    constructor
    · intro hjl
      rw [mem_pySortedSet, mem_luFold_low] at hjl
      obtain ⟨cls', hcls', hj', hsing'⟩ := hjl
      have hcc : cls' = cls := groups_mem_unique hv hsub hgs hcls' hcls hj' hj
      subst hcc
      exact hnone j hj ((clsDecs_eq_singleton_iff.mp hsing').2 j hj)
    · intro hju
      rw [mem_pySortedSet, mem_luFold_up] at hju
      obtain ⟨cls', hcls', hj', hdv⟩ := hju
      have hcc : cls' = cls := groups_mem_unique hv hsub hgs hcls' hcls hj' hj
      subst hcc
      obtain ⟨j1, hj1, hd1⟩ := mem_clsDecs_iff.mp hdv
      exact hnone j1 hj1 hd1

/-- C7 witness at the section-8 example table. -/
theorem c7_witness :
    (∀ cls ∈ ([[0, 1], [2]] : List (List Nat)),
        (∀ j ∈ cls, decisionOf exTable j = "P") →
          ∀ j ∈ cls, j ∈ ([0, 1] : List Nat) ∧ j ∈ ([0, 1] : List Nat)) ∧
      (∀ cls ∈ ([[0, 1], [2]] : List (List Nat)),
        (∃ j ∈ cls, decisionOf exTable j = "P") →
          (∃ j ∈ cls, decisionOf exTable j ≠ "P") →
            ∀ j ∈ cls, j ∈ ([0, 1] : List Nat) ∧ j ∉ ([0, 1] : List Nat)) ∧
      (∀ cls ∈ ([[0, 1], [2]] : List (List Nat)),
        (∀ j ∈ cls, decisionOf exTable j ≠ "P") →
          ∀ j ∈ cls, j ∉ ([0, 1] : List Nat) ∧ j ∉ ([0, 1] : List Nat)) ∧
      ([0, 1] : List Nat).Sorted (· ≤ ·) ∧ ([0, 1] : List Nat).Nodup ∧
      ([0, 1] : List Nat).Sorted (· ≤ ·) ∧ ([0, 1] : List Nat).Nodup :=
  c7_classification exTable ["A1", "A2"] "P" [[0, 1], [2]] [0, 1] [0, 1]
    (by decide) (by decide) (by decide) (by decide)

/-- C2 counterexample: for a decision value absent from the table the upper
approximation is empty, the boundary is empty, yet the accuracy is 0, not 1:
"accuracy = 1 iff boundary is empty" fails as stated. -/
theorem c2_counterexample :
    lower_upper exTable ["A1", "A2"] "Z" = some ([], []) ∧
      boundary ([] : List Nat) [] = [] ∧ accuracy ([] : List Nat) [] ≠ 1 := by
  refine ⟨by decide, rfl, ?_⟩
  unfold accuracy
  norm_num

/-- C2 amended: accuracy lies in [0,1], is 0 when the upper approximation is
empty, and for a non-empty upper approximation it is 1 exactly when the
boundary is empty. -/
theorem c2_accuracy (t : DecisionTable) (sub : List String) (dv : String)
    (l u : List Nat) (_hv : t.Valid) (_hsub : ∀ a ∈ sub, a ∈ t.attrs)
    (hlu : lower_upper t sub dv = some (l, u)) :
    0 ≤ accuracy l u ∧ accuracy l u ≤ 1 ∧ (u = [] → accuracy l u = 0) ∧
      (u ≠ [] → (accuracy l u = 1 ↔ boundary l u = [])) := by
  obtain ⟨eq, heq, hl, hu⟩ := lower_upper_some hlu
  have hsubm : ∀ x ∈ l, x ∈ u := by
    intro x hx
    rw [hl, mem_pySortedSet, mem_luFold_low] at hx
    rw [hu, mem_pySortedSet, mem_luFold_up]
    obtain ⟨cls, hcls, hxc, hsing⟩ := hx
    exact ⟨cls, hcls, hxc, hsing ▸ Finset.mem_singleton_self dv⟩
  have hln : l.Nodup := hl ▸ pySortedSet_nodup _
  have hun : u.Nodup := hu ▸ pySortedSet_nodup _
  have hfsub : l.toFinset ⊆ u.toFinset := by
    intro x hx
    rw [List.mem_toFinset] at hx ⊢
    exact hsubm x hx
  have hcard : l.length ≤ u.length := by
    have h1 := List.toFinset_card_of_nodup hln
    have h2 := List.toFinset_card_of_nodup hun
    have h3 := Finset.card_le_card hfsub
    omega
  refine ⟨?_, ?_, ?_, ?_⟩
  · unfold accuracy
    split_ifs with h
    · positivity
    · exact le_refl 0
  · unfold accuracy
    split_ifs with h
    · rw [div_le_one (by positivity)]
      exact_mod_cast hcard
    · norm_num
  · intro hunil
    subst hunil
    unfold accuracy
    simp
  · intro hune
    have hlen0 : u.length ≠ 0 := fun h0 => hune (List.length_eq_zero.mp h0)
    unfold accuracy
    rw [if_pos hlen0]
    constructor
    · intro h1
      rw [div_eq_one_iff_eq (by exact_mod_cast hlen0)] at h1
      have hll : l.length = u.length := by exact_mod_cast h1
      have hfeq : l.toFinset = u.toFinset := by
        apply Finset.eq_of_subset_of_card_le hfsub
        rw [List.toFinset_card_of_nodup hln, List.toFinset_card_of_nodup hun]
        omega
      unfold boundary
      rw [pySortedSet_eq_nil_iff, List.filter_eq_nil_iff]
      intro x hx
      have hxl : x ∈ l := by
        have hxf : x ∈ l.toFinset := by
          rw [hfeq]
          exact List.mem_toFinset.mpr hx
        exact List.mem_toFinset.mp hxf
      simp [hxl]
    · intro hb
      unfold boundary at hb
      rw [pySortedSet_eq_nil_iff, List.filter_eq_nil_iff] at hb
      have husub : ∀ x ∈ u, x ∈ l := by
        intro x hx
        have := hb x hx
        simpa using this
      have hfsub2 : u.toFinset ⊆ l.toFinset := fun x hx =>
        List.mem_toFinset.mpr (husub x (List.mem_toFinset.mp hx))
      have hcard2 : u.length ≤ l.length := by
        have h1 := List.toFinset_card_of_nodup hln
        have h2 := List.toFinset_card_of_nodup hun
        have h3 := Finset.card_le_card hfsub2
        omega
      have hll : l.length = u.length := le_antisymm hcard hcard2
      rw [hll, div_self (by exact_mod_cast hlen0)]

/-- C2 amended witness at the section-8 example table. -/
theorem c2_witness :
    0 ≤ accuracy [0, 1] [0, 1] ∧ accuracy [0, 1] [0, 1] ≤ 1 ∧
      (([0, 1] : List Nat) = [] → accuracy [0, 1] [0, 1] = 0) ∧
      (([0, 1] : List Nat) ≠ [] →
        (accuracy [0, 1] [0, 1] = 1 ↔ boundary [0, 1] [0, 1] = [])) :=
  c2_accuracy exTable ["A1", "A2"] "P" [0, 1] [0, 1] (by decide) (by decide)
    (by decide)

/-! ### `inconsistent_objects` and `extract_rules` -/

theorem icGo_eq_nil_iff {t : DecisionTable} :
    ∀ {eq : List (List Nat)},
      icGo t eq = [] ↔ ∀ cls ∈ eq, (clsDecs t cls).card ≤ 1 := by
  intro eq
  induction eq with
  | nil => simp [icGo]
  | cons cls eq ih =>
      by_cases h : 1 < (clsDecs t cls).card
      · rw [icGo, if_pos h]
        constructor
        · intro habs
          exact absurd habs (List.cons_ne_nil _ _)
        · intro hall
          exact absurd (hall cls (by simp)) (by omega)
      · rw [icGo, if_neg h, ih]
        constructor
        · intro hall c hc
          rcases List.mem_cons.mp hc with rfl | hc'
          · omega
          · exact hall c hc'
        · intro hall c hc
          exact hall c (by simp [hc])

theorem inconsistent_some {t : DecisionTable} {sub : List String}
    {cf : List (List Nat × List String)} (h : inconsistent_objects t sub = some cf) :
    ∃ eq, equivalence_classes t sub = some eq ∧ cf = icGo t eq := by
  unfold inconsistent_objects at h
  cases heq : equivalence_classes t sub with
  | none => rw [heq] at h; cases h
  | some eq =>
      rw [heq, Option.map_some'] at h
      exact ⟨eq, rfl, (Option.some.inj h).symm⟩

/-- C10: `inconsistent_objects` returns the empty sequence exactly when, for
every decision value occurring in the table, the lower and upper
approximations under the same attribute subset coincide. -/
theorem c10_consistency (t : DecisionTable) (sub : List String)
    (cf : List (List Nat × List String)) (hv : t.Valid)
    (hsub : ∀ a ∈ sub, a ∈ t.attrs)
    (hcf : inconsistent_objects t sub = some cf) :
    cf = [] ↔ ∀ dv ∈ t.rows.map Prod.snd, ∀ l u,
      lower_upper t sub dv = some (l, u) → l = u := by
  obtain ⟨eq, heq, hcfe⟩ := inconsistent_some hcf
  subst hcfe
  rw [icGo_eq_nil_iff]
  constructor
  · intro hall dv _ l u hlu
    obtain ⟨eq', heq', hl, hu⟩ := lower_upper_some hlu
    rw [heq] at heq'
    have he := Option.some.inj heq'
    subst he
    subst hl
    subst hu
    apply pySortedSet_eq_of_memEq
    intro x
    rw [mem_luFold_low, mem_luFold_up]
    constructor
    · rintro ⟨cls, hcls, hx, hsing⟩
      exact ⟨cls, hcls, hx, hsing ▸ Finset.mem_singleton_self dv⟩
    · rintro ⟨cls, hcls, hx, hdv⟩
      refine ⟨cls, hcls, hx, ?_⟩
      have hsing : ({dv} : Finset String) ⊆ clsDecs t cls :=
        Finset.singleton_subset_iff.mpr hdv
      exact (Finset.eq_of_subset_of_card_le hsing (by simpa using hall cls hcls)).symm
  · intro hlu_all
    by_contra hne
    push_neg at hne
    obtain ⟨cls, hcls, hcard⟩ := hne
    have hclsne : cls ≠ [] := by
      intro h0
      subst h0
      unfold clsDecs at hcard
      simp at hcard
    obtain ⟨j0, hj0⟩ : ∃ j0, j0 ∈ cls := by
      cases cls with
      | nil => exact absurd rfl hclsne
      | cons a as => exact ⟨a, by simp⟩
    have hj0lt : j0 < t.rows.length := mem_class_lt hv hsub heq hcls hj0
    have hdvmem : decisionOf t j0 ∈ t.rows.map Prod.snd := decisionOf_mem hj0lt
    have hlu := @lower_upper_eq t sub (decisionOf t j0) eq heq
    have hl_eq_u := hlu_all (decisionOf t j0) hdvmem _ _ hlu
    have hup : j0 ∈ pySortedSet (luFold t (decisionOf t j0) eq).2 := by
      rw [mem_pySortedSet, mem_luFold_up]
      exact ⟨cls, hcls, hj0, mem_clsDecs_iff.mpr ⟨j0, hj0, rfl⟩⟩
    have hlow : j0 ∉ pySortedSet (luFold t (decisionOf t j0) eq).1 := by
      rw [mem_pySortedSet, mem_luFold_low]
      rintro ⟨cls', hcls', hj0', hsing'⟩
      have hcc : cls' = cls := groups_mem_unique hv hsub heq hcls' hcls hj0' hj0
      subst hcc
      rw [hsing'] at hcard
      simp at hcard
    rw [hl_eq_u] at hlow
    exact hlow hup

/-- C10 witness at the section-8 example table. -/
theorem c10_witness :
    ([] : List (List Nat × List String)) = [] ↔
      ∀ dv ∈ exTable.rows.map Prod.snd, ∀ l u,
        lower_upper exTable ["A1", "A2"] dv = some (l, u) → l = u :=
  c10_consistency exTable ["A1", "A2"] [] (by decide) (by decide) (by decide)

theorem rulesGo_nil_of_lower_nil {t : DecisionTable} {sub : List String} :
    ∀ {ds : List String} {out : List String},
      (∀ d ∈ ds, ∀ l u, lower_upper t sub d = some (l, u) → l = []) →
      rulesGo t sub ds = some out → out = [] := by
  intro ds
  induction ds with
  | nil =>
      intro out _ h
      exact (Option.some.inj h).symm
  | cons d ds ih =>
      intro out hall h
      cases hlu : lower_upper t sub d with
      | none => rw [rulesGo, hlu] at h; cases h
      | some lu =>
          have hl : lu.1 = [] := hall d (by simp) lu.1 lu.2 (by rw [hlu])
          rw [rulesGo, hlu] at h
          have h2 : (mapOpt (fun idx => ruleFor t sub idx d) lu.1 >>= fun rs =>
              rulesGo t sub ds >>= fun rest => some (rs ++ rest)) = some out := h
          rw [hl] at h2
          have h3 : (rulesGo t sub ds >>= fun rest =>
              some (([] : List String) ++ rest)) = some out := h2
          cases hrest : rulesGo t sub ds with
          | none => rw [hrest] at h3; cases h3
          | some rest =>
              rw [hrest] at h3
              have h4 : some (([] : List String) ++ rest) = some out := h3
              have ho := Option.some.inj h4
              rw [List.nil_append] at ho
              rw [← ho]
              exact ih (fun d' hd' => hall d' (by simp [hd'])) hrest

theorem extract_rules_some {t : DecisionTable} {sub : List String}
    {rules : List String} (h : extract_rules t sub = some rules) :
    ∃ rules0, rulesGo t sub (uniqF (t.rows.map Prod.snd)) = some rules0 ∧
      rules = pySortedSet rules0 := by
  unfold extract_rules at h
  cases hgo : rulesGo t sub (uniqF (t.rows.map Prod.snd)) with
  | none => rw [hgo] at h; cases h
  | some rules0 =>
      rw [hgo, Option.map_some'] at h
      exact ⟨rules0, rfl, (Option.some.inj h).symm⟩

theorem mapOpt_isSome {α β : Type} {f : α → Option β} {l : List α}
    (h : ∀ a ∈ l, (f a).isSome) : (mapOpt f l).isSome := by
  induction l with
  | nil => rfl
  | cons a as ih =>
      obtain ⟨b, hb⟩ := Option.isSome_iff_exists.mp (h a (by simp))
      obtain ⟨bs, hbs⟩ :=
        Option.isSome_iff_exists.mp (ih fun x hx => h x (by simp [hx]))
      simp [mapOpt, hb, hbs]

theorem ruleFor_isSome {t : DecisionTable} {sub : List String} {idx : Nat}
    {d : String} (hv : t.Valid) (hsub : ∀ a ∈ sub, a ∈ t.attrs)
    (hidx : idx < t.rows.length) : (ruleFor t sub idx d).isSome := by
  unfold ruleFor
  have hr : t.rows.get? idx = some (t.rows.get ⟨idx, hidx⟩) :=
    List.get?_eq_some.mpr ⟨hidx, rfl⟩
  have hrowmem : t.rows.getD idx ([], "") ∈ t.rows := by
    rw [List.getD_eq_getD_get?, hr]
    exact List.get?_mem hr
  have halign := hv.align _ hrowmem
  have hmap := @mapOpt_eq_some_map String String
    (fun a => (colValue t.attrs (t.rows.getD idx ([], "")) a).map
      (fun v => a ++ "=" ++ v))
    (fun a => a ++ "=" ++ cellVal t.attrs (t.rows.getD idx ([], "")) a)
    sub ?_
  · rw [hmap]
    rfl
  · intro a ha
    have hs := colValue_isSome halign (Or.inl (hsub a ha))
    obtain ⟨v, hcv⟩ := Option.isSome_iff_exists.mp hs
    rw [List.getD_eq_getElem?_getD] at hcv
    simp [cellVal, hcv]

theorem mem_lower_lt {t : DecisionTable} {sub : List String} {dv : String}
    {l u : List Nat} (hv : t.Valid) (hsub : ∀ a ∈ sub, a ∈ t.attrs)
    (hlu : lower_upper t sub dv = some (l, u)) :
    ∀ idx ∈ l, idx < t.rows.length := by
  obtain ⟨eq, heq, hl, _⟩ := lower_upper_some hlu
  subst hl
  intro idx hidx
  rw [mem_pySortedSet, mem_luFold_low] at hidx
  obtain ⟨cls, hcls, hic, _⟩ := hidx
  exact mem_class_lt hv hsub heq hcls hic

theorem rulesGo_isSome {t : DecisionTable} {sub : List String} (hv : t.Valid)
    (hsub : ∀ a ∈ sub, a ∈ t.attrs) :
    ∀ ds : List String, (rulesGo t sub ds).isSome := by
  intro ds
  induction ds with
  | nil => rfl
  | cons d ds ih =>
      have hlu := @lower_upper_eq t sub d _ (eqc_some hv hsub)
      have hmapS := @mapOpt_isSome Nat String (fun idx => ruleFor t sub idx d)
        (pySortedSet (luFold t d (eqcGroups (keyOf t.attrs sub) t.rows)).1)
        (fun idx hidx => ruleFor_isSome hv hsub (mem_lower_lt hv hsub hlu idx hidx))
      obtain ⟨rs, hrs⟩ := Option.isSome_iff_exists.mp hmapS
      obtain ⟨rest, hrest⟩ := Option.isSome_iff_exists.mp ih
      simp [rulesGo, hlu, hrs, hrest]

/-- C8: on a valid table the rule extractor succeeds, the rule list is
duplicate free and sorted on the rule text, and it is empty (not an error)
whenever no object lies in any decision value's lower approximation. -/
theorem c8_rules (t : DecisionTable) (sub : List String) (hv : t.Valid)
    (hsub : ∀ a ∈ sub, a ∈ t.attrs) :
    ∃ rules, extract_rules t sub = some rules ∧ rules.Nodup ∧
      rules.Sorted (· ≤ ·) ∧
      ((∀ d ∈ t.rows.map Prod.snd, ∀ l u,
          lower_upper t sub d = some (l, u) → l = []) → rules = []) := by
  obtain ⟨rules0, h0⟩ :=
    Option.isSome_iff_exists.mp (rulesGo_isSome hv hsub (uniqF (t.rows.map Prod.snd)))
  refine ⟨pySortedSet rules0, ?_, pySortedSet_nodup _, pySortedSet_sorted _, ?_⟩
  · unfold extract_rules
    rw [h0, Option.map_some']
  · intro hall
    have h00 : rules0 = [] :=
      rulesGo_nil_of_lower_nil (fun d hd => hall d (mem_uniqF.mp hd)) h0
    rw [h00]
    rfl

/-- C8 witness at a concrete table. -/
theorem c8_witness :
    ∃ rules, extract_rules exTable2 ["A1"] = some rules ∧ rules.Nodup ∧
      rules.Sorted (· ≤ ·) ∧
      ((∀ d ∈ exTable2.rows.map Prod.snd, ∀ l u,
          lower_upper exTable2 ["A1"] d = some (l, u) → l = []) → rules = []) :=
  c8_rules exTable2 ["A1"] (by decide) (by decide)

end RoughSet
